import Mathlib

/-!
Verification development for the query-execution admission controller, its
crash-survivable activity log, the description formatter, the recovery
reader, and the object-storage copy tooling of this repository.

The admission controller, activity log, formatter and recovery reader are
not shipped in the visible sources (only their tests and callers are), so
those components are modelled from the specification, faithfully to its
words; the copy tooling (`runCopy`, `gcsBucket.Upload`) is embedded
directly from the Go sources.
-/

namespace Mimir

/-! ## Contexts

A Go `context.Context` as consumed by this code: it optionally carries a
tenant (org) identifier and a distributed-trace identifier, and has a
cancellation status. -/

/-- Cancellation status of a Go context. -/
inductive CtxStatus where
  | active
  | canceled
  | deadlineExceeded
deriving DecidableEq, Repr

/-- Modelled from the spec: the request-scoped context exposing optional
"current tenant identifier" and "current trace identifier" lookups, plus its
cancellation state. -/
structure GoContext where
  traceID : Option String
  tenant : Option String
  status : CtxStatus
deriving DecidableEq, Repr

/-! ## DescriptionFormatter -/

/-- Modelled from the spec: `generateActivityDescription` (§4.3
DescriptionFormatter, exercised by `TestActivityDescription`): renders, in
fixed order, only the fields whose source is present — `traceID=<id> `,
then `tenant=<id> `, then always `query=<operationSummary>`. -/
def generateActivityDescription (ctx : GoContext) (operationSummary : String) : String :=
  (match ctx.traceID with
   | some t => "traceID=" ++ (t ++ " ")
   | none => "") ++
  ((match ctx.tenant with
    | some u => "tenant=" ++ (u ++ " ")
    | none => "") ++
   ("query=" ++ operationSummary))

/-- C2: the description formatter renders exactly the fields whose source is
present, in the fixed order traceID, tenant, query, separated by exactly one
space with no leading or trailing space: with neither tenant nor trace it
returns `query=<summary>`, with tenant only `tenant=<id> query=<summary>`,
with trace only `traceID=<id> query=<summary>`, and with both
`traceID=<id> tenant=<id> query=<summary>`. -/
theorem generateActivityDescription_cases (trace tenant s : String) (st : CtxStatus) :
    generateActivityDescription ⟨none, none, st⟩ s = "query=" ++ s ∧
    generateActivityDescription ⟨none, some tenant, st⟩ s =
      "tenant=" ++ tenant ++ " query=" ++ s ∧
    generateActivityDescription ⟨some trace, none, st⟩ s =
      "traceID=" ++ trace ++ " query=" ++ s ∧
    generateActivityDescription ⟨some trace, some tenant, st⟩ s =
      "traceID=" ++ trace ++ " tenant=" ++ tenant ++ " query=" ++ s := by
  refine ⟨?_, ?_, ?_, ?_⟩ <;>
    · apply String.ext
      simp [generateActivityDescription, String.data_append, String.append_assoc]

/-! ## ActivityLog

Modelled from the spec (§4.1): a fixed-capacity table of slots; `none` is a
free slot, `some desc` an occupied slot holding a description. The backing
memory-mapped file is modelled separately (`LogFile`) for `Open` and the
RecoveryReader. -/

/-- One activity-log slot. -/
abbrev Slot := Option String

/-- Modelled from the spec: the in-memory view of the activity log —
fixed-size slot table plus the last claimed index that the rotating search
starts after. -/
structure ActivityLog where
  slots : List Slot
  lastIndex : Nat
deriving DecidableEq, Repr

/-- The fixed capacity of the log: its number of slots. -/
def ActivityLog.capacity (log : ActivityLog) : Nat := log.slots.length

/-- Modelled from the spec: a freshly created log of the given capacity,
every slot free. -/
def ActivityLog.new (capacity : Nat) : ActivityLog :=
  ⟨List.replicate capacity none, 0⟩

/-- Modelled from the spec: the rotating search — probe `slots.length`
positions starting at `start`, wrapping modulo the capacity, and return the
first free index found, if any. -/
def findFreeFrom (slots : List Slot) (start : Nat) : Option Nat :=
  ((List.range slots.length).map fun k => (start + k) % slots.length).find?
    fun i => (slots.getD i (some "")).isNone

/-- Modelled from the spec: `Insert` claims a free slot via the rotating
search starting after the last claimed index, writes the description and
publishes occupancy; if no slot is free it reports `recorded = false` and
changes nothing. Returns (new log, slot index, recorded). -/
def ActivityLog.insert (log : ActivityLog) (desc : String) : ActivityLog × Nat × Bool :=
  match findFreeFrom log.slots ((log.lastIndex + 1) % log.slots.length) with
  | some i => (⟨log.slots.set i (some desc), i⟩, i, true)
  | none => (log, 0, false)

/-- Modelled from the spec: `Clear` marks the slot free (idempotent). -/
def ActivityLog.clear (log : ActivityLog) (i : Nat) : ActivityLog :=
  ⟨log.slots.set i none, log.lastIndex⟩

/-- Number of currently free slots. -/
def ActivityLog.freeCount (log : ActivityLog) : Nat :=
  log.slots.countP fun s => s.isNone

/-- `Insert` applied to each description in turn, collecting the `recorded`
flags. -/
def insertK (log : ActivityLog) : List String → ActivityLog × List Bool
  | [] => (log, [])
  | d :: ds =>
    let r := log.insert d
    let rest := insertK r.1 ds
    (rest.1, r.2.2 :: rest.2)

theorem countP_set (p : Slot → Bool) (l : List Slot) (i : Nat) (a b : Slot)
    (h : l.get? i = some b) :
    (l.set i a).countP p + (if p b then 1 else 0) =
      l.countP p + (if p a then 1 else 0) := by
  induction l generalizing i with
  | nil => simp at h
  | cons c t ih =>
    cases i with
    | zero =>
      simp only [List.get?] at h
      cases h
      simp only [List.set, List.countP_cons]
      omega
    | succ j =>
      simp only [List.get?] at h
      have := ih j h
      simp only [List.set, List.countP_cons]
      omega

theorem findFreeFrom_some {slots : List Slot} {start i : Nat}
    (h : findFreeFrom slots start = some i) :
    i < slots.length ∧ slots.get? i = some none := by
  have hmem := List.mem_of_find?_eq_some h
  have hpred := List.find?_some h
  simp only [List.mem_map, List.mem_range] at hmem
  obtain ⟨k, hk, hik⟩ := hmem
  have hlen : 0 < slots.length := by omega
  have hi : i < slots.length := by
    rw [← hik]; exact Nat.mod_lt _ hlen
  refine ⟨hi, ?_⟩
  obtain ⟨x, hx⟩ : ∃ x, slots.get? i = some x :=
    ⟨slots.get ⟨i, hi⟩, List.get?_eq_get hi⟩
  have hgd : slots.getD i (some "") = x := by
    simp [List.getD_eq_getElem?_getD, ← List.get?_eq_getElem?, hx]
  rw [hgd] at hpred
  cases x with
  | none => exact hx
  | some d => simp at hpred

theorem findFreeFrom_isSome {slots : List Slot} (start i : Nat)
    (hi : i < slots.length) (hfree : slots.get? i = some none) :
    (findFreeFrom slots start).isSome = true := by
  rw [Option.isSome_iff_ne_none]
  intro hnone
  rw [findFreeFrom, List.find?_eq_none] at hnone
  have hlen : 0 < slots.length := by omega
  set n := slots.length with hn
  set s := start % n with hs
  have hsn : s < n := Nat.mod_lt _ hlen
  have hk : (n - s + i) % n < n := Nat.mod_lt _ hlen
  have hmem : i ∈ (List.range n).map fun k => (start + k) % n := by
    refine List.mem_map.mpr ⟨(n - s + i) % n, List.mem_range.mpr hk, ?_⟩
    have h1 : (start + (n - s + i) % n) % n = (start + (n - s + i)) % n :=
      Nat.add_mod_mod start (n - s + i) n
    have h2 : (start + (n - s + i)) % n = (s + (n - s + i)) % n := by
      conv_lhs => rw [Nat.add_mod]
      rw [← hs, Nat.add_mod_mod]
    have h3 : s + (n - s + i) = n + i := by omega
    have h4 : (n + i) % n = i := by
      rw [Nat.add_mod_left]
      exact Nat.mod_eq_of_lt hi
    rw [h1, h2, h3, h4]
  have := hnone i hmem
  have hgd : slots.getD i (some "") = none := by
    simp [List.getD_eq_getElem?_getD, ← List.get?_eq_getElem?, hfree]
  rw [hgd] at this
  simp at this

theorem ActivityLog.insert_of_freeCount_pos (log : ActivityLog) (desc : String)
    (h : 0 < log.freeCount) :
    (log.insert desc).2.2 = true ∧
    (log.insert desc).1.capacity = log.capacity ∧
    (log.insert desc).1.freeCount + 1 = log.freeCount := by
  obtain ⟨x, hxmem, hxfree⟩ := List.countP_pos_iff.mp h
  obtain ⟨i, hi⟩ := List.mem_iff_get?.mp hxmem
  have hx : x = none := by cases x <;> simp_all
  subst hx
  have hilen : i < log.slots.length := by
    by_contra hge
    rw [List.get?_eq_none.mpr (by omega)] at hi
    cases hi
  have hsome := findFreeFrom_isSome ((log.lastIndex + 1) % log.slots.length) i hilen hi
  obtain ⟨j, hj⟩ := Option.isSome_iff_exists.mp hsome
  obtain ⟨hjlen, hjfree⟩ := findFreeFrom_some hj
  have hcnt := countP_set (fun s => s.isNone) log.slots j (some desc) none hjfree
  refine ⟨?_, ?_, ?_⟩
  · simp [ActivityLog.insert, hj]
  · simp [ActivityLog.insert, hj, ActivityLog.capacity]
  · simp only [ActivityLog.insert, hj, ActivityLog.freeCount]
    simpa using hcnt

theorem ActivityLog.insert_of_freeCount_zero (log : ActivityLog) (desc : String)
    (h : log.freeCount = 0) :
    log.insert desc = (log, 0, false) := by
  have hall := List.countP_eq_zero.mp h
  have hnone : findFreeFrom log.slots ((log.lastIndex + 1) % log.slots.length) = none := by
    rw [findFreeFrom, List.find?_eq_none]
    intro i hmem
    simp only [List.mem_map, List.mem_range] at hmem
    obtain ⟨k, hk, hik⟩ := hmem
    have hlen : 0 < log.slots.length := by omega
    have hi : i < log.slots.length := by rw [← hik]; exact Nat.mod_lt _ hlen
    obtain ⟨x, hx⟩ : ∃ x, log.slots.get? i = some x :=
      ⟨log.slots.get ⟨i, hi⟩, List.get?_eq_get hi⟩
    have hxmem : x ∈ log.slots := List.get?_mem hx
    have hgd : log.slots.getD i (some "") = x := by
      simp [List.getD_eq_getElem?_getD, ← List.get?_eq_getElem?, hx]
    rw [hgd]
    exact hall x hxmem
  simp [ActivityLog.insert, hnone]

theorem ActivityLog.clear_occupied (log : ActivityLog) (i : Nat) (d : String)
    (h : log.slots.get? i = some (some d)) :
    (log.clear i).capacity = log.capacity ∧
    (log.clear i).freeCount = log.freeCount + 1 := by
  have hcnt := countP_set (fun s => s.isNone) log.slots i none (some d) h
  refine ⟨?_, ?_⟩
  · simp [ActivityLog.clear, ActivityLog.capacity]
  · simp only [ActivityLog.clear, ActivityLog.freeCount]
    simpa using hcnt

theorem insertK_succeeds (log : ActivityLog) (descs : List String)
    (h : descs.length ≤ log.freeCount) :
    (insertK log descs).2 = List.replicate descs.length true ∧
    (insertK log descs).1.freeCount + descs.length = log.freeCount := by
  induction descs generalizing log with
  | nil => simp [insertK]
  | cons d ds ih =>
    have hpos : 0 < log.freeCount := by
      simp only [List.length_cons] at h; omega
    obtain ⟨hrec, _, hfc⟩ := ActivityLog.insert_of_freeCount_pos log d hpos
    have hle : ds.length ≤ (log.insert d).1.freeCount := by
      simp only [List.length_cons] at h; omega
    obtain ⟨ih1, ih2⟩ := ih (log.insert d).1 hle
    simp only [insertK, List.length_cons, List.replicate]
    exact ⟨by rw [hrec, ih1], by omega⟩

theorem freeCount_new (C : Nat) : (ActivityLog.new C).freeCount = C := by
  induction C with
  | zero => rfl
  | succ m ih =>
    simp only [ActivityLog.new, ActivityLog.freeCount, List.replicate,
      List.countP_cons] at ih ⊢
    simp_all

/-- C3: for an activity log of capacity `C`, after `C` Inserts that each
return `recorded = true` with no intervening Clear, the `(C+1)`th Insert
returns `recorded = false` without failing (and changes nothing), and after
Clear of any one occupied slot exactly one further Insert returns
`recorded = true` (the next one after it reports `false` again). -/
theorem activityLog_capacity_exhaustion (C : Nat) (descs : List String)
    (hlen : descs.length = C) (d d' d'' : String) :
    (insertK (ActivityLog.new C) descs).2 = List.replicate C true ∧
    ((insertK (ActivityLog.new C) descs).1.insert d).2.2 = false ∧
    ((insertK (ActivityLog.new C) descs).1.insert d).1 =
      (insertK (ActivityLog.new C) descs).1 ∧
    (∀ i d0, (insertK (ActivityLog.new C) descs).1.slots.get? i = some (some d0) →
      (((insertK (ActivityLog.new C) descs).1.clear i).insert d').2.2 = true ∧
      (((((insertK (ActivityLog.new C) descs).1.clear i).insert d').1).insert d'').2.2 =
        false) := by
  have hfc := freeCount_new C
  obtain ⟨hall, hleft⟩ := insertK_succeeds (ActivityLog.new C) descs (by omega)
  set r := insertK (ActivityLog.new C) descs with hr
  have hzero : r.1.freeCount = 0 := by omega
  have hfull := ActivityLog.insert_of_freeCount_zero r.1 d hzero
  refine ⟨by rw [hall, hlen], by rw [hfull], by rw [hfull], ?_⟩
  intro i d0 hocc
  obtain ⟨_, hclear⟩ := ActivityLog.clear_occupied r.1 i d0 hocc
  have hone : 0 < (r.1.clear i).freeCount := by omega
  obtain ⟨hrec', _, hfc'⟩ := ActivityLog.insert_of_freeCount_pos (r.1.clear i) d' hone
  refine ⟨hrec', ?_⟩
  have hzero' : ((r.1.clear i).insert d').1.freeCount = 0 := by omega
  rw [ActivityLog.insert_of_freeCount_zero _ d'' hzero']

/-! ## On-disk layout and Open -/

/-- Modelled from the spec: the record size of one activity entry is fixed
at file creation (a bounded-length description plus an occupancy flag); the
exact byte count is an implementation constant. -/
def recordSizeBytes : Nat := 1024

/-- Modelled from the spec: the header's format version constant. -/
def fileFormatVersion : Nat := 1

/-- Modelled from the spec: the persisted layout — a fixed-size file made of
a header (format version, declared capacity, record size) followed by
`capacity` fixed-size records, each an occupancy flag plus a bounded-length
description. -/
structure LogFile where
  formatVersion : Nat
  capacity : Nat
  recordSize : Nat
  slots : List Slot
deriving DecidableEq, Repr

/-- Modelled from the spec: the file `Open` creates for a fresh path sized
for the given capacity, all slots free. -/
def createFile (capacity : Nat) : LogFile :=
  ⟨fileFormatVersion, capacity, recordSizeBytes, List.replicate capacity none⟩

/-- The configuration error surfaced by `Open` on a capacity or record-size
mismatch. -/
inductive OpenError where
  | configurationError
deriving DecidableEq, Repr

/-- Modelled from the spec: `ActivityLog.Open(path, capacity)` — creates or
reuses the backing file; if an existing file declares a different capacity
or record size (or an unrecognized format version), it fails with
`ConfigurationError` and returns nothing else; otherwise it returns the log
view together with the (unmodified) backing file. `existing` is the file
currently at the path, if any. -/
def ActivityLog.openFile (existing : Option LogFile) (capacity : Nat) :
    Except OpenError (ActivityLog × LogFile) :=
  match existing with
  | none => .ok (ActivityLog.new capacity, createFile capacity)
  | some f =>
    if f.capacity = capacity ∧ f.recordSize = recordSizeBytes ∧
        f.formatVersion = fileFormatVersion then
      .ok (⟨f.slots, 0⟩, f)
    else
      .error .configurationError

/-- C5: reopening a log file created with capacity `c₁` using a different
capacity `c₂` (or a different record size) returns `ConfigurationError`;
and `Open` never truncates or reinterprets an existing file — whenever it
succeeds, the file it returns is exactly the existing file and the declared
capacity matches it. -/
theorem openFile_capacity_mismatch (c₁ c₂ rs : Nat) (h : c₁ ≠ c₂)
    (hrs : rs ≠ recordSizeBytes) :
    ActivityLog.openFile (some (createFile c₁)) c₂ = .error .configurationError ∧
    ActivityLog.openFile
      (some ⟨fileFormatVersion, c₁, rs, List.replicate c₁ none⟩) c₁ =
      .error .configurationError ∧
    (∀ f log f', ActivityLog.openFile (some f) c₂ = .ok (log, f') →
      f' = f ∧ log.slots = f.slots ∧ f.capacity = c₂) := by
  refine ⟨?_, ?_, ?_⟩
  · simp [ActivityLog.openFile, createFile, h]
  · simp [ActivityLog.openFile, hrs]
  · intro f log f' hok
    rw [ActivityLog.openFile] at hok
    split at hok
    next hcond =>
      cases hok
      exact ⟨rfl, rfl, hcond.1⟩
    next => cases hok

/-! ## RecoveryReader -/

/-- Walks the slot table with an explicit running index, keeping the
occupied slots. -/
def entriesFrom (i : Nat) : List Slot → List (Nat × String)
  | [] => []
  | none :: rest => entriesFrom (i + 1) rest
  | some d :: rest => (i, d) :: entriesFrom (i + 1) rest

/-- Modelled from the spec: `RecoveryReader.Entries()` — every slot
currently flagged occupied, as `(slotIndex, description)` pairs in
ascending slot-index order. -/
def RecoveryReader.entries (f : LogFile) : List (Nat × String) :=
  entriesFrom 0 f.slots

/-- Modelled from the spec: the reader maps the file read-only; reading the
entries returns the file contents unchanged alongside the listing. -/
def RecoveryReader.read (f : LogFile) : List (Nat × String) × LogFile :=
  (RecoveryReader.entries f, f)

theorem entriesFrom_mem_bounds (l : List Slot) (i : Nat) :
    ∀ p ∈ entriesFrom i l, i ≤ p.1 ∧ p.1 < i + l.length := by
  induction l generalizing i with
  | nil => simp [entriesFrom]
  | cons c rest ih =>
    cases c with
    | none =>
      intro p hp
      have := ih (i + 1) p hp
      simp only [List.length_cons]
      omega
    | some d =>
      intro p hp
      simp only [entriesFrom, List.mem_cons] at hp
      rcases hp with hp | hp
      · subst hp; simp only [List.length_cons]; omega
      · have := ih (i + 1) p hp
        simp only [List.length_cons]
        omega

theorem entriesFrom_pairwise (l : List Slot) (i : Nat) :
    (entriesFrom i l).Pairwise (fun a b => a.1 < b.1) := by
  induction l generalizing i with
  | nil => simp [entriesFrom]
  | cons c rest ih =>
    cases c with
    | none => exact ih (i + 1)
    | some d =>
      simp only [entriesFrom]
      refine List.Pairwise.cons ?_ (ih (i + 1))
      intro p hp
      have := (entriesFrom_mem_bounds rest (i + 1) p hp).1
      omega

theorem entriesFrom_mem_iff (l : List Slot) (i j : Nat) (d : String) :
    (j, d) ∈ entriesFrom i l ↔ ∃ k, j = i + k ∧ l.get? k = some (some d) := by
  induction l generalizing i with
  | nil => simp [entriesFrom]
  | cons c rest ih =>
    cases c with
    | none =>
      simp only [entriesFrom, ih (i + 1)]
      constructor
      · rintro ⟨k, hk, hget⟩
        exact ⟨k + 1, by omega, by simpa using hget⟩
      · rintro ⟨k, hk, hget⟩
        cases k with
        | zero => simp at hget
        | succ m => exact ⟨m, by omega, by simpa using hget⟩
    | some e =>
      simp only [entriesFrom, List.mem_cons, ih (i + 1)]
      constructor
      · rintro (hp | ⟨k, hk, hget⟩)
        · cases hp
          exact ⟨0, by omega, by simp⟩
        · exact ⟨k + 1, by omega, by simpa using hget⟩
      · rintro ⟨k, hk, hget⟩
        cases k with
        | zero =>
          simp only [List.get?] at hget
          cases hget
          left
          simp [show j = i by omega]
        | succ m =>
          right
          exact ⟨m, by omega, by simpa using hget⟩

/-- C6: `RecoveryReader.Entries` returns exactly the
`(slotIndex, description)` pairs of the slots flagged occupied, in strictly
ascending slot-index order, and leaves the file contents unchanged. -/
theorem recoveryReader_entries_exact (f : LogFile) :
    (RecoveryReader.entries f).Pairwise (fun a b => a.1 < b.1) ∧
    (∀ j d, (j, d) ∈ RecoveryReader.entries f ↔ f.slots.get? j = some (some d)) ∧
    (RecoveryReader.read f).2 = f := by
  refine ⟨entriesFrom_pairwise f.slots 0, ?_, rfl⟩
  intro j d
  rw [RecoveryReader.entries, entriesFrom_mem_iff]
  constructor
  · rintro ⟨k, hk, hget⟩
    simpa [show k = j by omega] using hget
  · intro hget
    exact ⟨j, by omega, hget⟩

/-! ## AdmissionController -/

/-- Errors returned by a blocked `Insert` whose context ends. -/
inductive AdmissionError where
  | admissionCanceled
  | admissionTimedOut
deriving DecidableEq, Repr

/-- Modelled from the spec: the opaque handle returned by
`AdmissionController.Insert` — it records whether a concurrency unit is
held and the log slot index (or `none` when the log declined or is
disabled), plus an identity distinguishing issued handles; the zero/empty
handle has id `0` and is never issued. -/
structure Handle where
  id : Nat
  heldUnit : Bool
  slot : Option Nat
deriving DecidableEq, Repr

/-- The zero/empty handle. -/
def Handle.empty : Handle := ⟨0, false, none⟩

/-- Modelled from the spec: the admission controller (`queryTracker`) —
concurrency bound, in-use counter, the activity log, the handles issued and
not yet deleted, and the next fresh handle identity. -/
structure QueryTracker where
  maxConcurrent : Int
  inUse : Int
  log : ActivityLog
  live : List Handle
  nextId : Nat
deriving DecidableEq, Repr

/-- Modelled from the spec: `New(limit, log)`; `limit = -1` disables
bounding. Issued handle identities start at 1, so the zero handle is never
issued. -/
def newQueryTracker (limit : Int) (log : ActivityLog) : QueryTracker :=
  ⟨limit, 0, log, [], 1⟩

/-- Modelled from the spec: `GetMaxConcurrent()` returns the configured
limit. -/
def QueryTracker.getMaxConcurrent (qt : QueryTracker) : Int :=
  qt.maxConcurrent

/-- Modelled from the spec: one attempt of `Insert(ctx, summary)`. When
unbounded (`limit < 0`) it is a pure pass-through to the log; when a unit
is free it acquires it, formats the description and asks the log for a
slot; when no unit is free it consults the context — a canceled/expired
context yields `AdmissionCanceled`/`AdmissionTimedOut` with nothing
acquired and the state unchanged, while an active context leaves the caller
suspended (`none`). -/
def QueryTracker.insert (qt : QueryTracker) (ctx : GoContext) (summary : String) :
    Option (Except AdmissionError Handle × QueryTracker) :=
  if qt.maxConcurrent < 0 then
    let desc := generateActivityDescription ctx summary
    let r := qt.log.insert desc
    let h : Handle := ⟨qt.nextId, false, if r.2.2 then some r.2.1 else none⟩
    some (.ok h, { qt with log := r.1, live := h :: qt.live, nextId := qt.nextId + 1 })
  else if qt.inUse < qt.maxConcurrent then
    let desc := generateActivityDescription ctx summary
    let r := qt.log.insert desc
    let h : Handle := ⟨qt.nextId, true, if r.2.2 then some r.2.1 else none⟩
    some (.ok h,
      { qt with inUse := qt.inUse + 1, log := r.1, live := h :: qt.live,
                nextId := qt.nextId + 1 })
  else
    match ctx.status with
    | .canceled => some (.error .admissionCanceled, qt)
    | .deadlineExceeded => some (.error .admissionTimedOut, qt)
    | .active => none

/-- Modelled from the spec: `Delete(handle)` — for a handle that was issued
and not yet deleted, releases the unit (if held) and clears the slot (if
recorded); a zero/empty, unknown or already-deleted handle is a safe
no-op. -/
def QueryTracker.delete (qt : QueryTracker) (h : Handle) : QueryTracker :=
  if h.id ≠ 0 ∧ h ∈ qt.live then
    { qt with
      inUse := if h.heldUnit then qt.inUse - 1 else qt.inUse,
      log := match h.slot with
             | some i => qt.log.clear i
             | none => qt.log,
      live := qt.live.erase h }
  else
    qt

/-- C8: `GetMaxConcurrent` on a controller created with `New(limit, log)`
returns that limit; in particular the controller created with limit `-1`
(the unbounded, disabled/nil-tracker variant, whose disabled log has no
slots) returns `-1`. -/
theorem getMaxConcurrent_returns_limit (limit : Int) (log : ActivityLog) :
    (newQueryTracker limit log).getMaxConcurrent = limit ∧
    (newQueryTracker (-1) (ActivityLog.new 0)).getMaxConcurrent = -1 :=
  ⟨rfl, rfl⟩

/-- C4: if an `Insert` that would block (bounded controller with every unit
in use) sees a canceled context, it returns `AdmissionCanceled`; if its
deadline has expired, it returns `AdmissionTimedOut`. In both cases the
controller state — `inUse`, the log, and the set of live handles — is
exactly unchanged, so nothing was acquired. -/
theorem insert_canceled_acquires_nothing (qt : QueryTracker) (ctx : GoContext)
    (s : String) (hb : 0 ≤ qt.maxConcurrent) (hfull : qt.maxConcurrent ≤ qt.inUse) :
    (ctx.status = .canceled →
      qt.insert ctx s = some (.error .admissionCanceled, qt)) ∧
    (ctx.status = .deadlineExceeded →
      qt.insert ctx s = some (.error .admissionTimedOut, qt)) := by
  have h1 : ¬ qt.maxConcurrent < 0 := by omega
  have h2 : ¬ qt.inUse < qt.maxConcurrent := by omega
  constructor
  · intro hc
    simp [QueryTracker.insert, h1, h2, hc]
  · intro hc
    simp [QueryTracker.insert, h1, h2, hc]

theorem insert_canceled_acquires_nothing_witness :
    (0 : Int) ≤ (newQueryTracker 0 (ActivityLog.new 1)).maxConcurrent ∧
    (newQueryTracker 0 (ActivityLog.new 1)).maxConcurrent ≤
      (newQueryTracker 0 (ActivityLog.new 1)).inUse ∧
    ((newQueryTracker 0 (ActivityLog.new 1)).insert ⟨none, none, .canceled⟩ "q" =
      some (.error .admissionCanceled, newQueryTracker 0 (ActivityLog.new 1))) :=
  ⟨by decide, by decide,
    (insert_canceled_acquires_nothing (newQueryTracker 0 (ActivityLog.new 1))
      ⟨none, none, .canceled⟩ "q" (by decide) (by decide)).1 rfl⟩

/-- C7: `Delete` applied to the zero/empty handle, to a handle not among
the live (issued, undeleted) handles, or — when live handles are distinct —
applied a second time to an already-deleted handle, is a no-op: the whole
controller state, in particular the concurrency counter and every log
slot, is unchanged (and the function is total, so it cannot panic). -/
theorem delete_unknown_handle_noop (qt : QueryTracker) (h : Handle) :
    qt.delete Handle.empty = qt ∧
    (h ∉ qt.live → qt.delete h = qt) ∧
    (qt.live.Nodup → (qt.delete h).delete h = qt.delete h) := by
  refine ⟨?_, ?_, ?_⟩
  · simp [QueryTracker.delete, Handle.empty]
  · intro hmem
    simp [QueryTracker.delete, hmem]
  · intro hnd
    by_cases hl : h.id ≠ 0 ∧ h ∈ qt.live
    · have hqt' : qt.delete h =
          { qt with
            inUse := if h.heldUnit then qt.inUse - 1 else qt.inUse,
            log := match h.slot with
                   | some i => qt.log.clear i
                   | none => qt.log,
            live := qt.live.erase h } := by
        simp [QueryTracker.delete, hl]
      have hnm : h ∉ (qt.delete h).live := by
        rw [hqt']
        exact hnd.not_mem_erase
      generalize qt.delete h = qt2 at hnm ⊢
      simp [QueryTracker.delete, hnm]
    · have hqt' : qt.delete h = qt := by simp [QueryTracker.delete, hl]
      simp only [hqt']

theorem delete_unknown_handle_noop_witness :
    ((newQueryTracker 2 (ActivityLog.new 1)).delete Handle.empty =
      newQueryTracker 2 (ActivityLog.new 1)) ∧
    (⟨5, true, none⟩ : Handle) ∉ (newQueryTracker 2 (ActivityLog.new 1)).live ∧
    ((newQueryTracker 2 (ActivityLog.new 1)).delete ⟨5, true, none⟩ =
      newQueryTracker 2 (ActivityLog.new 1)) ∧
    (newQueryTracker 2 (ActivityLog.new 1)).live.Nodup ∧
    (((newQueryTracker 2 (ActivityLog.new 1)).delete ⟨5, true, none⟩).delete
        ⟨5, true, none⟩ =
      (newQueryTracker 2 (ActivityLog.new 1)).delete ⟨5, true, none⟩) :=
  ⟨(delete_unknown_handle_noop (newQueryTracker 2 (ActivityLog.new 1))
      ⟨5, true, none⟩).1,
   by decide,
   (delete_unknown_handle_noop (newQueryTracker 2 (ActivityLog.new 1))
      ⟨5, true, none⟩).2.1 (by decide),
   by decide,
   (delete_unknown_handle_noop (newQueryTracker 2 (ActivityLog.new 1))
      ⟨5, true, none⟩).2.2 (by decide)⟩

/-! ## Interleavings of concurrent Insert/Delete pairs -/

theorem length_filter_erase {α : Type} [DecidableEq α] (p : α → Bool) (a : α)
    (l : List α) (ha : a ∈ l) :
    (l.filter p).length = ((l.erase a).filter p).length + (if p a then 1 else 0) := by
  induction l with
  | nil => simp at ha
  | cons b t ih =>
    by_cases hba : b = a
    · subst hba
      rw [List.erase_cons_head]
      simp only [List.filter_cons]
      split <;> simp
    · have hmem : a ∈ t := by
        rcases List.mem_cons.mp ha with h | h
        · exact absurd h.symm hba
        · exact h
      rw [List.erase_cons_tail (by simpa using hba)]
      simp only [List.filter_cons]
      split
      · simp only [List.length_cons]
        rw [ih hmem]
        omega
      · exact ih hmem

/-- One client of an interleaving: it has not yet called `Insert`, it holds
the handle returned by a successful `Insert`, or it has called `Delete`. -/
inductive ClientPhase where
  | pending
  | running (h : Handle)
  | finished
deriving DecidableEq, Repr

/-- A controller together with the phases of `N` clients, each performing
one Insert/Delete pair. -/
structure Sys where
  qt : QueryTracker
  clients : List ClientPhase
deriving DecidableEq, Repr

/-- One interleaving step: some pending client completes an `Insert` (with
any context and summary), or some running client performs its `Delete`. -/
inductive Step : Sys → Sys → Prop where
  | insert (s : Sys) (i : Nat) (ctx : GoContext) (summary : String) (h : Handle)
      (qt' : QueryTracker)
      (hcl : s.clients.get? i = some .pending)
      (hins : s.qt.insert ctx summary = some (.ok h, qt')) :
      Step s ⟨qt', s.clients.set i (.running h)⟩
  | delete (s : Sys) (i : Nat) (h : Handle)
      (hcl : s.clients.get? i = some (.running h)) :
      Step s ⟨s.qt.delete h, s.clients.set i .finished⟩

/-- The initial system: a fresh controller from `New(L, log)` and `N`
clients yet to call `Insert`. -/
def initSys (L : Int) (log : ActivityLog) (N : Nat) : Sys :=
  ⟨newQueryTracker L log, List.replicate N .pending⟩

/-- Number of concurrency units held by live handles. -/
def heldUnits (qt : QueryTracker) : Nat :=
  (qt.live.filter (·.heldUnit)).length

/-- The inductive invariant: the configured bound is `L`, the in-use
counter counts exactly the held units of live handles, and it never
exceeds `L`. -/
def SysInv (L : Int) (s : Sys) : Prop :=
  s.qt.maxConcurrent = L ∧ s.qt.inUse = (heldUnits s.qt : Int) ∧ s.qt.inUse ≤ L

theorem sysInv_init (L : Int) (log : ActivityLog) (N : Nat) (hL : 0 ≤ L) :
    SysInv L (initSys L log N) := by
  refine ⟨rfl, ?_, ?_⟩
  · simp [initSys, newQueryTracker, heldUnits]
  · simpa [initSys, newQueryTracker] using hL

theorem sysInv_step (L : Int) (hL : 0 ≤ L) {s s' : Sys} (hs : SysInv L s)
    (hstep : Step s s') : SysInv L s' := by
  obtain ⟨hmax, hcount, hle⟩ := hs
  cases hstep with
  | insert i ctx summary h qt' hcl hins =>
    rw [QueryTracker.insert] at hins
    have hneg : ¬ s.qt.maxConcurrent < 0 := by omega
    rw [if_neg hneg] at hins
    by_cases hlt : s.qt.inUse < s.qt.maxConcurrent
    · rw [if_pos hlt] at hins
      simp only [Option.some.injEq, Prod.mk.injEq, Except.ok.injEq] at hins
      obtain ⟨hh, hqt⟩ := hins
      subst hqt
      refine ⟨hmax, ?_, ?_⟩
      · simp only [heldUnits] at hcount ⊢
        simp only [List.filter_cons]
        norm_num
        omega
      · show s.qt.inUse + 1 ≤ L
        omega
    · rw [if_neg hlt] at hins
      cases hst : ctx.status <;> simp [hst] at hins
  | delete i h hcl =>
    by_cases hcond : h.id ≠ 0 ∧ h ∈ s.qt.live
    · have herase := length_filter_erase (fun x => x.heldUnit) h s.qt.live hcond.2
      simp only [QueryTracker.delete, if_pos hcond]
      refine ⟨hmax, ?_, ?_⟩
      · simp only [heldUnits] at hcount ⊢
        by_cases hu : h.heldUnit
        · simp only [hu, if_pos] at herase ⊢
          omega
        · simp only [hu] at herase ⊢
          simp only [Bool.false_eq_true, if_false] at herase ⊢
          omega
      · by_cases hu : h.heldUnit <;> simp [hu] <;> omega
    · simp only [QueryTracker.delete, if_neg hcond]
      exact ⟨hmax, hcount, hle⟩

theorem sysInv_reachable (L : Int) (log : ActivityLog) (N : Nat) (s : Sys)
    (hL : 0 ≤ L) (hr : Relation.ReflTransGen Step (initSys L log N) s) :
    SysInv L s := by
  induction hr with
  | refl => exact sysInv_init L log N hL
  | tail hab hstep ih => exact sysInv_step L hL ih hstep

/-- C1: for every bound `L ≥ 0` and every interleaving of `N` concurrent
Insert/Delete pairs against a controller created with `New(L, log)` — every
state reachable from the initial system by interleaving steps — the number
of simultaneously-admitted operations (`inUse`) never exceeds `L` and never
drops below `0`. -/
theorem admission_bound_invariant (L : Int) (log : ActivityLog) (N : Nat)
    (s : Sys) (hL : 0 ≤ L)
    (hreach : Relation.ReflTransGen Step (initSys L log N) s) :
    0 ≤ s.qt.inUse ∧ s.qt.inUse ≤ L := by
  obtain ⟨_, hcount, hle⟩ := sysInv_reachable L log N s hL hreach
  refine ⟨?_, hle⟩
  rw [hcount]
  exact Int.natCast_nonneg _

theorem admission_bound_invariant_witness :
    (0 : Int) ≤ 1 ∧
    (0 ≤ (initSys 1 (ActivityLog.new 1) 2).qt.inUse ∧
      (initSys 1 (ActivityLog.new 1) 2).qt.inUse ≤ 1) :=
  ⟨by decide,
    admission_bound_invariant 1 (ActivityLog.new 1) 2
      (initSys 1 (ActivityLog.new 1) 2) (by decide) Relation.ReflTransGen.refl⟩

theorem activityLog_capacity_exhaustion_witness :
    (["a", "b"] : List String).length = 2 ∧
    ((insertK (ActivityLog.new 2) ["a", "b"]).2 = List.replicate 2 true ∧
     ((insertK (ActivityLog.new 2) ["a", "b"]).1.insert "c").2.2 = false ∧
     ((insertK (ActivityLog.new 2) ["a", "b"]).1.insert "c").1 =
       (insertK (ActivityLog.new 2) ["a", "b"]).1 ∧
     (∀ i d0,
       (insertK (ActivityLog.new 2) ["a", "b"]).1.slots.get? i = some (some d0) →
       (((insertK (ActivityLog.new 2) ["a", "b"]).1.clear i).insert "e").2.2 = true ∧
       (((((insertK (ActivityLog.new 2) ["a", "b"]).1.clear i).insert "e").1).insert
           "f").2.2 = false)) :=
  ⟨rfl, activityLog_capacity_exhaustion 2 ["a", "b"] rfl "c" "e" "f"⟩

theorem openFile_capacity_mismatch_witness :
    (1 : Nat) ≠ 2 ∧ (7 : Nat) ≠ recordSizeBytes ∧
    (ActivityLog.openFile (some (createFile 1)) 2 = .error .configurationError ∧
     ActivityLog.openFile
       (some ⟨fileFormatVersion, 1, 7, List.replicate 1 none⟩) 1 =
       .error .configurationError ∧
     (∀ f log f', ActivityLog.openFile (some f) 2 = .ok (log, f') →
       f' = f ∧ log.slots = f.slots ∧ f.capacity = 2)) :=
  ⟨by decide, by decide,
    openFile_capacity_mismatch 1 2 7 (by decide) (by decide)⟩

/-! ## Object-storage copy tool (`runCopy`, from the sources)

Embedded from `runCopy` in the copy tool's `main.go`: the outer
`var exists map[string]struct{}` is declared nil; inside
`if cfg.overwrite { ... }` the statement `exists := make(map[string]struct{},
len(destNames))` declares a NEW, shadowed variable scoped to that block, so
the map the copy loop consults is always the outer nil map, and a lookup in
a nil Go map always misses. The model keeps both variables: the inner one is
built and then dropped at the end of the block, exactly as in Go. -/

/-- Configuration of the copy tool (`-overwrite`, `-dry-run`). -/
structure CopyToolConfig where
  overwrite : Bool
  dryRun : Bool
deriving DecidableEq, Repr

/-- What the copy loop does with one source object name. -/
inductive CopyEvent where
  | skippedExists (name : String)
  | skippedDryRun (name : String)
  | copied (name : String)
deriving DecidableEq, Repr

/-- The `for _, name := range sourceNames` loop of `runCopy`: skip names
found in the consulted existence map, skip (logging) under dry-run,
otherwise copy; a copy error aborts the loop and is returned. `copyErr`
gives the error, if any, that `copyFunc` returns for a name. -/
def copyLoop (existsMap : List String) (dryRun : Bool)
    (copyErr : String → Option String) :
    List String → List CopyEvent × Option String
  | [] => ([], none)
  | name :: rest =>
    if name ∈ existsMap then
      let r := copyLoop existsMap dryRun copyErr rest
      (.skippedExists name :: r.1, r.2)
    else if dryRun then
      let r := copyLoop existsMap dryRun copyErr rest
      (.skippedDryRun name :: r.1, r.2)
    else
      match copyErr name with
      | some e => ([], some e)
      | none =>
        let r := copyLoop existsMap dryRun copyErr rest
        (.copied name :: r.1, r.2)

/-- Embedded from `runCopy`: the outer `exists` map stays nil; the inner
`exists` built from the destination listing when `overwrite` is true is a
distinct, shadowed variable that goes out of scope unused. The loop runs
against the outer map. -/
def runCopy (cfg : CopyToolConfig) (sourceNames destNames : List String)
    (copyErr : String → Option String) : List CopyEvent × Option String :=
  let existsOuter : List String := []
  let _existsInner : List String := if cfg.overwrite then destNames else []
  copyLoop existsOuter cfg.dryRun copyErr sourceNames

theorem copyLoop_nil_exists (dryRun : Bool) (copyErr : String → Option String)
    (names : List String) :
    (∀ n, CopyEvent.skippedExists n ∉ (copyLoop [] dryRun copyErr names).1) ∧
    ((∀ n ∈ names, copyErr n = none) →
      (copyLoop [] dryRun copyErr names).1 =
        names.map fun n => if dryRun then .skippedDryRun n else .copied n) := by
  induction names with
  | nil => simp [copyLoop]
  | cons name rest ih =>
    constructor
    · intro n
      cases hd : dryRun with
      | true =>
        subst hd
        simp only [copyLoop, List.not_mem_nil, if_false, if_true, List.mem_cons]
        rintro (h | h)
        · cases h
        · exact ih.1 n h
      | false =>
        subst hd
        cases hce : copyErr name with
        | some e => simp [copyLoop, hce]
        | none =>
          simp only [copyLoop, hce]
          simp
          intro h
          exact ih.1 n h
    · intro hok
      have hname : copyErr name = none := hok name (by simp)
      have hrest : ∀ n ∈ rest, copyErr n = none := fun n hn => hok n (by simp [hn])
      cases hd : dryRun with
      | true =>
        subst hd
        simp [copyLoop, ih.2 hrest]
      | false =>
        subst hd
        simp [copyLoop, hname, ih.2 hrest]

/-- C9: `runCopy` never skips a source object on the ground that it already
exists in the destination — the existence set built when `overwrite` is
true lands in a shadowed inner variable, so the map the copy loop consults
is the nil outer map. No `skippedExists` event ever occurs, and when no
copy fails every listed source name is copied (or dry-run logged), for
every configuration and bucket contents. -/
theorem runCopy_never_skips_existing (cfg : CopyToolConfig)
    (sourceNames destNames : List String) (copyErr : String → Option String) :
    (∀ n, CopyEvent.skippedExists n ∉ (runCopy cfg sourceNames destNames copyErr).1) ∧
    ((∀ n ∈ sourceNames, copyErr n = none) →
      (runCopy cfg sourceNames destNames copyErr).1 =
        sourceNames.map fun n => if cfg.dryRun then .skippedDryRun n else .copied n) := by
  rw [runCopy]
  exact copyLoop_nil_exists cfg.dryRun copyErr sourceNames

theorem runCopy_never_skips_existing_witness :
    (∀ n ∈ (["x", "y"] : List String), (fun _ => (none : Option String)) n = none) ∧
    (∀ n, CopyEvent.skippedExists n ∉
      (runCopy ⟨true, false⟩ ["x", "y"] ["x", "y"] fun _ => none).1) ∧
    (runCopy ⟨true, false⟩ ["x", "y"] ["x", "y"] fun _ => none).1 =
      [CopyEvent.copied "x", CopyEvent.copied "y"] :=
  ⟨fun _ _ => rfl,
   (runCopy_never_skips_existing ⟨true, false⟩ ["x", "y"] ["x", "y"] fun _ => none).1,
   ((runCopy_never_skips_existing ⟨true, false⟩ ["x", "y"] ["x", "y"]
       fun _ => none).2 fun _ _ => rfl).trans (by simp)⟩

/-! ## GCS upload content-length check (from the sources) -/

/-- Embedded from `github.com/pkg/errors`: `errors.Wrap`/`errors.Wrapf`
return nil when the wrapped error is nil. -/
def goWrap (err : Option String) (msg : String) : Option String :=
  match err with
  | none => none
  | some e => some (msg ++ ": " ++ e)

/-- Embedded from `gcsBucket.Upload`: copy the reader into the object
writer; a copy error is wrapped and returned; then, if the copied byte
count differs from the declared content length, the function wraps `err` —
which is necessarily nil on this path — and returns that; otherwise it
returns the writer's close result. `copyN`/`copyErr` are the results of
`io.Copy`, `closeErr` the result of `w.Close()`. -/
def gcsUpload (copyN : Int) (copyErr : Option String) (contentLength : Int)
    (closeErr : Option String) : Option String :=
  if copyErr.isSome then
    goWrap copyErr "failed during copy stage of GCS upload"
  else if copyN ≠ contentLength then
    goWrap copyErr
      ("unexpected content length from copy: expected=" ++ toString contentLength ++
        ", actual=" ++ toString copyN)
  else
    closeErr

/-- C10: if `io.Copy` into the GCS object writer returns a nil error but a
byte count different from the declared content length, `gcsBucket.Upload`
returns a nil error — the mismatch branch wraps the nil `io.Copy` error —
so a content-length mismatch on GCS upload is never reported to the
caller. -/
theorem gcsUpload_mismatch_not_reported (copyN contentLength : Int)
    (closeErr : Option String) (h : copyN ≠ contentLength) :
    gcsUpload copyN none contentLength closeErr = none := by
  simp [gcsUpload, goWrap, h]

theorem gcsUpload_mismatch_not_reported_witness :
    (5 : Int) ≠ 9 ∧ gcsUpload 5 none 9 (some "close failed") = none :=
  ⟨by decide, gcsUpload_mismatch_not_reported 5 9 (some "close failed") (by decide)⟩

end Mimir
